import Mathlib

/-!
Shallow embedding of the pyblooming repository: the `Bitmap` byte/bit store
(`cbitmap.pyx`) and the partitioned `BloomFilter` built on top of it
(`cbloom.pyx`).  Machine integers (`size_t`, `unsigned char`, the `"<Q"` /
`"<I"` struct formats) are modelled as `Nat` with explicit `% 2^w` where the
code wraps or packs.  Fallible construction is modelled with `Except`.
-/

namespace Pyblooming

/-- `2^64`, the modulus of `size_t` arithmetic in the Cython code. -/
def M64 : Nat := 2 ^ 64

/-! ## Bitmap (`cbitmap.pyx`)

A `Bitmap` is a fixed-size byte region (`self.mmap` of `self.size` bytes).
The byte store is modelled as a total function from byte index to byte
value; the code only ever addresses indices below `size`. -/

structure Bitmap where
  size : Nat
  bytes : Nat → Nat

/-- `Bitmap.__len__`: the size of the bitmap in bits, `8 * self.size`. -/
def Bitmap.lenBits (b : Bitmap) : Nat := 8 * b.size

/-- `Bitmap.__getitem__`:
`return <int> (self.mmap[idx >> 3] >> (7 - idx % 8)) & 0x1`. -/
def Bitmap.getItem (b : Bitmap) (idx : Nat) : Nat :=
  (b.bytes (idx >>> 3) >>> (7 - idx % 8)) &&& 1

/-- `Bitmap.__setitem__`: when `val` is truthy,
`self.mmap[idx >> 3] = self.mmap[idx >> 3] | 1 << (7 - idx % 8)`,
otherwise `self.mmap[idx >> 3] = self.mmap[idx >> 3] & ~(1 << (7 - idx % 8))`.
The store is an `unsigned char` store, hence the `% 256`; the C `~` acts
within the byte, i.e. as xor against `255`. -/
def Bitmap.setItem (b : Bitmap) (idx : Nat) (val : Nat) : Bitmap :=
  let byteAt := idx >>> 3
  let pos := 7 - idx % 8
  if val ≠ 0 then
    { b with bytes := Function.update b.bytes byteAt ((b.bytes byteAt ||| (1 <<< pos)) % 256) }
  else
    { b with bytes := Function.update b.bytes byteAt ((b.bytes byteAt &&& (255 ^^^ (1 <<< pos))) % 256) }

/-- An all-zero bitmap of `n` bytes (a freshly zero-filled mmap region). -/
def zeroBitmap (n : Nat) : Bitmap := ⟨n, fun _ => 0⟩

/-! ## Little-endian packing

`struct.unpack` / `struct.pack` with the `"<Q"` (8-byte) and `"<I"` (4-byte)
little-endian formats, applied to the byte slices obtained through
`Bitmap.__getslice__` / `__setslice__`.  `readLE g off n` decodes `n` bytes
starting at byte offset `off`; `writeLE g off n v` overwrites that window
with the little-endian encoding of `v`. -/

def readLE (g : Nat → Nat) (off : Nat) : Nat → Nat
  | 0 => 0
  | n + 1 => g off % 256 + 256 * readLE g (off + 1) n

def writeLE (g : Nat → Nat) (off n v : Nat) : Nat → Nat :=
  fun j => if off ≤ j ∧ j < off + n then (v >>> (8 * (j - off))) &&& 255 else g j

/-! ## Hashing (`BloomFilter._compute_hashes`)

Four classical string hashes (djb, dek, fnv, js) are evaluated in rounds of
four over `size_t` (64-bit) accumulators; rounds after the first first mix in
the 8 salt bytes of the previous round.  Keys are byte strings, modelled as
`List Nat` of byte values. -/

structure HashAcc where
  djb : Nat
  dek : Nat
  fnv : Nat
  js : Nat

def fnvPrime : Nat := 0x811C9DC5

/-- One byte step of the four accumulators:
`djb = ((djb << 5) + djb) + b`, `dek = ((dek << 6) ^ (dek >> 27)) ^ b`,
`fnv = fnv * FNV_PRIME; fnv = fnv ^ b`,
`js = js ^ ((js << 5) + b + (js >> 2))`, all in `size_t` arithmetic. -/
def mixByte (a : HashAcc) (b : Nat) : HashAcc :=
  { djb := ((a.djb <<< 5) + a.djb + b) % M64
    dek := (((a.dek <<< 6) % M64) ^^^ (a.dek >>> 27)) ^^^ b
    fnv := ((a.fnv * fnvPrime) % M64) ^^^ b
    js := a.js ^^^ (((a.js <<< 5) + b + (a.js >>> 2)) % M64) }

def mixBytes (a : HashAcc) (bs : List Nat) : HashAcc := bs.foldl mixByte a

/-- The 8 salt bytes: `key_val = (salt >> (j << 3)) & 255` for
`j = 0 .. sizeof(size_t) - 1`. -/
def saltBytes (salt : Nat) : List Nat :=
  (List.range 8).map fun j => (salt >>> (j <<< 3)) &&& 255

/-- The per-round initial accumulators:
`djb = 5381`, `dek = len(key)`, `fnv = 0`, `js = 1315423911`. -/
def initAcc (keyLen : Nat) : HashAcc :=
  { djb := 5381, dek := keyLen % M64, fnv := 0, js := 1315423911 }

/-- One round `i` of `_compute_hashes`: reset the accumulators; for `i > 0`
do `dek += sizeof(size_t)` and mix the salt bytes; then mix the key bytes. -/
def hashRound (key : List Nat) (i salt : Nat) : HashAcc :=
  let a := initAcc key.length
  let a := if 0 < i then
    mixBytes { a with dek := (a.dek + 8) % M64 } (saltBytes salt) else a
  mixBytes a key

/-- The next salt: `djb ^ dek ^ fnv ^ js` of the round just finished. -/
def saltOf (a : HashAcc) : Nat := a.djb ^^^ a.dek ^^^ a.fnv ^^^ a.js

/-- `rounds = k / 4; if (k & 3) > 0: rounds += 1`. -/
def numRounds (k : Nat) : Nat := k / 4 + (if 0 < k &&& 3 then 1 else 0)

/-- Run `n` rounds starting at round index `i` with the given salt, writing
each round into hash slots `[4i, 4i+3]` (the salt of round 0 is unused). -/
def hashRoundsFrom (key : List Nat) : Nat → Nat → Nat → List Nat
  | 0, _, _ => []
  | n + 1, i, salt =>
    let a := hashRound key i salt
    [a.djb, a.dek, a.fnv, a.js] ++ hashRoundsFrom key n (i + 1) (saltOf a)

/-- `_compute_hashes(key)`: the full hash buffer for `k = self.k_num`
(`4 * numRounds k` slots; only slots `< k` are ever read). -/
def computeHashes (key : List Nat) (k : Nat) : List Nat :=
  hashRoundsFrom key (numRounds k) 0 0

/-! ## BloomFilter (`cbloom.pyx`) -/

/-- `extra_buffer() = SIZE_LEN + K_NUM_LEN = 8 + 4` header bytes. -/
def extraBuffer : Nat := 8 + 4

structure BloomFilter where
  bitmap : Bitmap
  k_num : Nat
  /-- `self.bitmap_size`: usable bit count, `len(bitmap) - 8*extra_buffer()`. -/
  bitmap_size : Nat
  /-- `self.offset`: per-hash partition width, `bitmap_size / k_num`. -/
  offset : Nat
  count : Nat
  /-- The `self.hashes` scratch buffer (uninitialized after malloc). -/
  hashes : List Nat

/-- `_read_k_num`: unpack `"<I"` from bytes
`[bitmap_size/8 + SIZE_LEN, +K_NUM_LEN)`. -/
def readKNum (bm : Bitmap) (bitmapSize : Nat) : Nat :=
  readLE bm.bytes (bitmapSize / 8 + 8) 4

/-- `_write_k_num`: pack `"<I"` of `k` into the same window (the code then
also flushes the bitmap, which has no in-memory effect). -/
def writeKNum (bm : Bitmap) (bitmapSize k : Nat) : Bitmap :=
  { bm with bytes := writeLE bm.bytes (bitmapSize / 8 + 8) 4 k }

/-- `_read_count`: unpack `"<Q"` from bytes `[bitmap_size/8, +SIZE_LEN)`. -/
def readCount (bm : Bitmap) (bitmapSize : Nat) : Nat :=
  readLE bm.bytes (bitmapSize / 8) 8

/-- Result of `__cinit__`: the constructed filter, plus whether the fresh
branch ran `_write_k_num` (which flushes the header through to disk). -/
structure MkOut where
  filter : BloomFilter
  headerFlushed : Bool

/-- `BloomFilter.__cinit__(bitmap, k)`: reject `k < 1`; compute
`bitmap_size = len(bitmap) - 8*extra_buffer()` (a Python int, possibly
negative) and reject when `≤ 0`; read the stored `k`; when it is `0`
install the caller's `k` and write it through (`"<I"` packing fails for
`k ≥ 2^32`); compute `offset = bitmap_size / k_num` and read the count. -/
def mkBloomFilter (bitmap : Bitmap) (k : Nat) : Except String MkOut :=
  if k < 1 then .error "Bad value provided for k!"
  else
    let bitmapSizeI : Int := 8 * (bitmap.size : Int) - 8 * (extraBuffer : Int)
    if bitmapSizeI ≤ 0 then .error "Bitmap is not large enough!"
    else
      let bitmapSize : Nat := 8 * bitmap.size - 8 * extraBuffer
      let storedK := readKNum bitmap bitmapSize
      if storedK = 0 then
        if k < 2 ^ 32 then
          let bm := writeKNum bitmap bitmapSize k
          .ok { filter := { bitmap := bm, k_num := k, bitmap_size := bitmapSize,
                            offset := bitmapSize / k,
                            count := readCount bm bitmapSize, hashes := [] },
                headerFlushed := true }
        else .error "OverflowError: k does not fit the <I header field"
      else
        .ok { filter := { bitmap := bitmap, k_num := storedK,
                          bitmap_size := bitmapSize,
                          offset := bitmapSize / storedK,
                          count := readCount bitmap bitmapSize, hashes := [] },
              headerFlushed := false }

/-- `__contains__(key)`: compute the hashes into the scratch buffer, then
check the bit `i*offset + (hashes[i] % offset)` for every `i < k_num`,
returning `False` as soon as one is `0`.  The pair returns the boolean
together with the post-state (the scratch buffer was overwritten). -/
def containsBF (f : BloomFilter) (key : List Nat) : Bool × BloomFilter :=
  let f := { f with hashes := computeHashes key f.k_num }
  let m := f.offset
  ((List.range f.k_num).all fun i =>
      f.bitmap.getItem (i * m + f.hashes.getD i 0 % m) != 0, f)

/-- The bit-setting loop of `add`: starting from a running `offset` of `0`
and stepping it by `m`, set `self.bitmap[offset + (h % m)] = 1` for each of
the `k` hash slots; at iteration `i` the running offset equals `i * m`. -/
def setBitsLoop (bm : Bitmap) (hs : List Nat) (m k : Nat) : Bitmap :=
  (List.range k).foldl (fun b i => b.setItem (i * m + hs.getD i 0 % m) 1) bm

/-- The unconditional tail of `add`: set the `k` partitioned bits from the
current scratch buffer, do `self.count += 1` (`size_t` arithmetic) and
return `True`. -/
def addSetBits (g : BloomFilter) : Bool × BloomFilter :=
  (true, { g with bitmap := setBitsLoop g.bitmap g.hashes g.offset g.k_num,
                  count := (g.count + 1) % M64 })

/-- `add(key, check_first)`: with `check_first`, run `__contains__` first and
return `False` on a hit (the scratch buffer now holds this key's hashes);
otherwise compute the hashes directly.  Then set the bits and bump the
count. -/
def addBF (f : BloomFilter) (key : List Nat) (checkFirst : Bool) :
    Bool × BloomFilter :=
  if checkFirst then
    let r := containsBF f key
    if r.1 then (false, r.2)
    else addSetBits r.2
  else addSetBits { f with hashes := computeHashes key f.k_num }

/-- `flush()` (in-memory effect): pack `"<Q"` of `self.count` into bytes
`[bitmap_size/8, +SIZE_LEN)` of the bitmap.  The subsequent
`self.bitmap.flush()` is a pure msync/fsync with no in-memory effect; if it
fails with an `OSError`, the state left behind is exactly this one. -/
def flushBF (f : BloomFilter) : BloomFilter :=
  { f with bitmap := { f.bitmap with
      bytes := writeLE f.bitmap.bytes (f.bitmap_size / 8) 8 f.count } }

/-- The bit index probed for hash slot `j` of `key`:
`j * offset + (hash[j] % offset)`. -/
def bloomBitIndex (f : BloomFilter) (key : List Nat) (j : Nat) : Nat :=
  j * f.offset + (computeHashes key f.k_num).getD j 0 % f.offset

/-! ## Scalable Bloom filter probability budget

Modelled from the spec: the `ScalingBloomFilter` implementation is not part
of the sources under review (only the classic filter and bitmap are); §4.3
of the spec defines the per-layer false-positive budget: first layer target
`p₀ = prob * (1 - scale_prob)`, and layer `i` target `pᵢ = p₀ * scale_prob^i`. -/

/-- Modelled from the spec: the first SBF layer's target probability
`p₀ = prob · (1 − r)` where `r` is `scale_prob`. -/
noncomputable def sbfP0 (prob r : ℝ) : ℝ := prob * (1 - r)

/-- Modelled from the spec: layer `i`'s target probability `pᵢ = p₀ · rⁱ`. -/
noncomputable def sbfLayerProb (prob r : ℝ) (i : ℕ) : ℝ := sbfP0 prob r * r ^ i

/-! ## Concrete states used by the witnesses -/

/-- A 13-byte bitmap whose header stores `k = 1` (byte 9 is the low byte of
the `"<I"` field at `bitmap_size/8 + 8 = 9`) and `count = 0`. -/
def sampleBitmap : Bitmap := ⟨13, fun j => if j = 9 then 1 else 0⟩

/-- The filter the code builds over `sampleBitmap`:
`bitmap_size = 8*13 - 96 = 8`, `k_num = 1` (from the header),
`offset = 8 / 1 = 8`, `count = 0`. -/
def sampleBF : BloomFilter :=
  { bitmap := sampleBitmap, k_num := 1, bitmap_size := 8, offset := 8,
    count := 0, hashes := [] }

/-! ## Bit-level helper lemmas -/

theorem shift_and_one_eq_testBit (x p : Nat) :
    (x >>> p) &&& 1 = (x.testBit p).toNat := by
  rw [Nat.and_one_is_mod, Nat.shiftRight_eq_div_pow, Nat.testBit_to_div_mod]
  rcases Nat.mod_two_eq_zero_or_one (x / 2 ^ p) with h | h <;> simp [h]

theorem getItem_eq_testBit (b : Bitmap) (i : Nat) :
    b.getItem i = ((b.bytes (i >>> 3)).testBit (7 - i % 8)).toNat := by
  unfold Bitmap.getItem
  exact shift_and_one_eq_testBit _ _

theorem shiftRight3_eq_div (x : Nat) : x >>> 3 = x / 8 := by
  rw [Nat.shiftRight_eq_div_pow]

theorem testBit_orByte (x p q : Nat) (hq : q < 8) :
    ((x ||| (1 <<< p)) % 256).testBit q = (x.testBit q || decide (p = q)) := by
  rw [show (256 : Nat) = 2 ^ 8 from rfl, Nat.testBit_mod_two_pow, Nat.one_shiftLeft,
    Nat.testBit_or, Nat.testBit_two_pow]
  simp [hq]

theorem testBit_andNotByte (x p q : Nat) (hq : q < 8) :
    ((x &&& (255 ^^^ (1 <<< p))) % 256).testBit q = (x.testBit q && !decide (p = q)) := by
  rw [show (256 : Nat) = 2 ^ 8 from rfl, Nat.testBit_mod_two_pow, Nat.testBit_and,
    show (255 : Nat) = 2 ^ 8 - 1 from rfl, Nat.one_shiftLeft, Nat.testBit_xor,
    Nat.testBit_two_pow_sub_one, Nat.testBit_two_pow]
  simp [hq]

theorem setItem_bytes (b : Bitmap) (i v t : Nat) :
    (b.setItem i v).bytes t =
      if t = i >>> 3 then
        (if v ≠ 0 then (b.bytes t ||| (1 <<< (7 - i % 8))) % 256
         else (b.bytes t &&& (255 ^^^ (1 <<< (7 - i % 8)))) % 256)
      else b.bytes t := by
  unfold Bitmap.setItem
  by_cases hv : v ≠ 0 <;> by_cases ht : t = i >>> 3 <;>
    simp [hv, ht, Function.update_same, Function.update_noteq]

theorem getItem_setItem_self (b : Bitmap) (i : Nat) :
    (b.setItem i 1).getItem i = 1 := by
  have hq : 7 - i % 8 < 8 := by omega
  rw [getItem_eq_testBit, setItem_bytes]
  simp [testBit_orByte _ _ _ hq]

theorem getItem_setItem_ne (b : Bitmap) (i v j : Nat) (hne : j ≠ i) :
    (b.setItem i v).getItem j = b.getItem j := by
  rw [getItem_eq_testBit, getItem_eq_testBit, setItem_bytes]
  by_cases ht : j >>> 3 = i >>> 3
  · have hj8 : j % 8 ≠ i % 8 := by
      intro h8
      apply hne
      rw [shiftRight3_eq_div, shiftRight3_eq_div] at ht
      omega
    have hq : 7 - j % 8 < 8 := by omega
    have hpq : ¬(7 - i % 8 = 7 - j % 8) := by omega
    rw [ht]
    by_cases hv : v ≠ 0 <;>
      simp [hv, testBit_orByte _ _ _ hq, testBit_andNotByte _ _ _ hq, hpq]
  · simp [ht]

theorem getItem_setItem_one_mono (b : Bitmap) (i j : Nat) (h : b.getItem j = 1) :
    (b.setItem i 1).getItem j = 1 := by
  by_cases hji : j = i
  · subst hji; exact getItem_setItem_self _ _
  · rw [getItem_setItem_ne _ _ _ _ hji]; exact h

theorem getItem_foldl_one_mono (l : List Nat) (g : Nat → Nat) (bm : Bitmap) (j : Nat)
    (h : bm.getItem j = 1) :
    (l.foldl (fun b i => b.setItem (g i) 1) bm).getItem j = 1 := by
  induction l generalizing bm with
  | nil => exact h
  | cons a t ih => exact ih _ (getItem_setItem_one_mono _ _ _ h)

theorem getItem_foldl_one_mem (l : List Nat) (g : Nat → Nat) :
    ∀ (bm : Bitmap) (j : Nat), j ∈ l →
      (l.foldl (fun b i => b.setItem (g i) 1) bm).getItem (g j) = 1 := by
  induction l with
  | nil => intro bm j hj; cases hj
  | cons a t ih =>
    intro bm j hj
    rw [List.foldl_cons]
    rcases List.mem_cons.1 hj with rfl | hmem
    · exact getItem_foldl_one_mono _ _ _ _ (getItem_setItem_self _ _)
    · exact ih _ _ hmem

theorem getItem_zeroBitmap (n j : Nat) : (zeroBitmap n).getItem j = 0 := by
  simp [Bitmap.getItem, zeroBitmap]

/-! ## Claim C5 -/

/-- Claim C5: for every Bitmap of `size_bytes` bytes and every bit index `i`
with `0 ≤ i < 8 * size_bytes`, `get(i)` and `set(i, v)` address byte
`i >> 3` at bit position `7 - (i mod 8)` (MSB-first), and setting exactly
bit `i` in an all-zero bitmap makes `get` return `1` at `i` and `0` at every
other index; `set` leaves all other bits unchanged. -/
theorem bitmap_bit_layout (n i : Nat) (_hi : i < 8 * n) :
    (∀ b : Bitmap, b.getItem i = (b.bytes (i >>> 3) >>> (7 - i % 8)) &&& 1)
    ∧ ((zeroBitmap n).setItem i 1).getItem i = 1
    ∧ (∀ j, j < 8 * n → j ≠ i → ((zeroBitmap n).setItem i 1).getItem j = 0)
    ∧ (∀ (b : Bitmap) (v j : Nat), j < 8 * n → j ≠ i →
        (b.setItem i v).getItem j = b.getItem j) := by
  refine ⟨fun b => rfl, getItem_setItem_self _ _, ?_, ?_⟩
  · intro j _ hne
    rw [getItem_setItem_ne _ _ _ _ hne]
    exact getItem_zeroBitmap _ _
  · intro b v j _ hne
    exact getItem_setItem_ne _ _ _ _ hne

/-- Witness for C5 at `size_bytes = 4`, `i = 5`. -/
theorem bitmap_bit_layout_witness :
    5 < 8 * 4 ∧ ((zeroBitmap 4).setItem 5 1).getItem 5 = 1 :=
  ⟨by decide, (bitmap_bit_layout 4 5 (by decide)).2.1⟩

/-! ## BloomFilter helper lemmas -/

theorem containsBF_snd (f : BloomFilter) (key : List Nat) :
    (containsBF f key).2 = { f with hashes := computeHashes key f.k_num } := rfl

theorem containsBF_fst_hashes_irrel (f : BloomFilter) (h0 : List Nat) (key : List Nat) :
    (containsBF { f with hashes := h0 } key).1 = (containsBF f key).1 := rfl

/-- After the bit-setting loop of `add` over a scratch buffer holding this
key's hashes, `__contains__` finds every probed bit set. -/
theorem contains_addSetBits (g0 : BloomFilter) (key : List Nat)
    (hh : g0.hashes = computeHashes key g0.k_num) :
    (containsBF (addSetBits g0).2 key).1 = true := by
  simp only [containsBF, addSetBits, List.all_eq_true]
  intro i hi
  have h1 : (setBitsLoop g0.bitmap g0.hashes g0.offset g0.k_num).getItem
      (i * g0.offset + (computeHashes key g0.k_num).getD i 0 % g0.offset) = 1 := by
    rw [← hh]
    exact getItem_foldl_one_mem (List.range g0.k_num)
      (fun i => i * g0.offset + g0.hashes.getD i 0 % g0.offset) g0.bitmap i hi
  rw [h1]
  rfl

/-! ## Claim C1 -/

/-- Claim C1: for every BloomFilter `f` with `offset ≥ 1` and every key `x`,
immediately after `f.add(x)` (with either value of `check_first`),
`f.contains(x)` returns true. -/
theorem add_then_contains (f : BloomFilter) (key : List Nat) (checkFirst : Bool)
    (_hoff : 1 ≤ f.offset) :
    (containsBF (addBF f key checkFirst).2 key).1 = true := by
  unfold addBF
  by_cases hcf : checkFirst
  · simp only [hcf, if_true]
    by_cases h1 : (containsBF f key).1
    · simp only [h1, if_true]
      rw [containsBF_snd, containsBF_fst_hashes_irrel]
      exact h1
    · simp only [h1, if_false]
      exact contains_addSetBits _ _ rfl
  · simp only [hcf, if_false]
    exact contains_addSetBits _ _ rfl

/-- Witness for C1: a concrete 13-byte filter with `offset = 8`. -/
theorem add_then_contains_witness :
    1 ≤ sampleBF.offset ∧ (containsBF (addBF sampleBF [7] false).2 [7]).1 = true :=
  ⟨by decide, add_then_contains sampleBF [7] false (by decide)⟩

/-! ## Claim C10 -/

/-- Claim C10: `contains` is a read-only query: it modifies neither the
underlying bitmap nor the count, so any sequence of `contains` calls leaves
the bitmap and count exactly as they were. -/
theorem contains_readonly (f : BloomFilter) (keys : List (List Nat)) :
    (∀ key, (containsBF f key).2.bitmap = f.bitmap ∧ (containsBF f key).2.count = f.count)
    ∧ (keys.foldl (fun s key => (containsBF s key).2) f).bitmap = f.bitmap
    ∧ (keys.foldl (fun s key => (containsBF s key).2) f).count = f.count := by
  refine ⟨fun key => ⟨rfl, rfl⟩, ?_⟩
  induction keys generalizing f with
  | nil => exact ⟨rfl, rfl⟩
  | cons a t ih =>
    rw [List.foldl_cons]
    rcases ih ((containsBF f a).2) with ⟨h1, h2⟩
    exact ⟨h1, h2⟩

/-! ## Claim C7 -/

/-- Claim C7: `add(key, check_first := true)` returns false and leaves the
bitmap bits and the count unchanged when `contains(key)` already holds; in
every other case (including re-adding a duplicate with
`check_first := false`) `add` sets the `k` partitioned bits, increments
`count` by exactly 1, and returns true.  The `count + 1 < 2^64` hypothesis
is the `size_t` width of the count field. -/
theorem add_spec (f : BloomFilter) (key : List Nat) (checkFirst : Bool)
    (hcnt : f.count + 1 < M64) :
    ((checkFirst = true ∧ (containsBF f key).1 = true) →
      (addBF f key checkFirst).1 = false
      ∧ (addBF f key checkFirst).2.bitmap = f.bitmap
      ∧ (addBF f key checkFirst).2.count = f.count)
    ∧ ((checkFirst = false ∨ (containsBF f key).1 = false) →
      (addBF f key checkFirst).1 = true
      ∧ (addBF f key checkFirst).2.count = f.count + 1
      ∧ ∀ j, j < f.k_num →
          (addBF f key checkFirst).2.bitmap.getItem (bloomBitIndex f key j) = 1) := by
  constructor
  · rintro ⟨rfl, hc⟩
    have hab : addBF f key true = (false, (containsBF f key).2) := by
      simp only [addBF, if_true, hc]
    rw [hab, containsBF_snd]
    exact ⟨rfl, rfl, rfl⟩
  · intro hother
    have hstep : ∀ g0 : BloomFilter, g0.bitmap = f.bitmap → g0.count = f.count →
        g0.k_num = f.k_num → g0.offset = f.offset →
        g0.hashes = computeHashes key f.k_num →
        (addSetBits g0).1 = true
        ∧ (addSetBits g0).2.count = f.count + 1
        ∧ ∀ j, j < f.k_num →
            (addSetBits g0).2.bitmap.getItem (bloomBitIndex f key j) = 1 := by
      intro g0 hb hc hk ho hh
      refine ⟨rfl, ?_, ?_⟩
      · simp only [addSetBits, hc]
        exact Nat.mod_eq_of_lt hcnt
      · intro j hj
        simp only [addSetBits]
        have : (setBitsLoop g0.bitmap g0.hashes g0.offset g0.k_num).getItem
            (j * g0.offset + g0.hashes.getD j 0 % g0.offset) = 1 :=
          getItem_foldl_one_mem (List.range g0.k_num)
            (fun i => i * g0.offset + g0.hashes.getD i 0 % g0.offset) g0.bitmap j
            (List.mem_range.2 (hk ▸ hj))
        simpa [bloomBitIndex, hk, ho, hh] using this
    rcases hother with hcf | hc
    · subst hcf
      simp only [addBF, if_false]
      exact hstep _ rfl rfl rfl rfl rfl
    · by_cases hcf : checkFirst
      · simp only [addBF, hcf, if_true, hc, if_false]
        exact hstep _ rfl rfl rfl rfl rfl
      · simp only [addBF, hcf, if_false]
        exact hstep _ rfl rfl rfl rfl rfl

/-- Witness for C7: adding a fresh key to the concrete sample filter. -/
theorem add_spec_witness :
    (addBF sampleBF [2] false).1 = true ∧ (addBF sampleBF [2] false).2.count = 0 + 1 :=
  ⟨((add_spec sampleBF [2] false (by decide)).2 (Or.inl rfl)).1,
   ((add_spec sampleBF [2] false (by decide)).2 (Or.inl rfl)).2.1⟩

/-! ## Little-endian pack/unpack lemmas -/

theorem writeLE_out (g : Nat → Nat) (off n v j : Nat) (h : j < off ∨ off + n ≤ j) :
    writeLE g off n v j = g j := by
  unfold writeLE
  rw [if_neg]
  omega

theorem readLE_congr (g1 g2 : Nat → Nat) (n : Nat) :
    ∀ off, (∀ t, t < n → g1 (off + t) = g2 (off + t)) →
      readLE g1 off n = readLE g2 off n := by
  induction n with
  | zero => intro off _; rfl
  | succ n ih =>
    intro off h
    unfold readLE
    rw [show g1 off = g2 off by simpa using h 0 (by omega),
      ih (off + 1) fun t ht => by
        rw [show off + 1 + t = off + (t + 1) by omega]
        exact h (t + 1) (by omega)]

theorem and_255_eq_mod (x : Nat) : x &&& 255 = x % 256 := by
  rw [show (255 : Nat) = 2 ^ 8 - 1 from rfl, Nat.and_pow_two_sub_one_eq_mod]

theorem readLE_writeLE (n : Nat) :
    ∀ (g : Nat → Nat) (off v : Nat), v < 2 ^ (8 * n) →
      readLE (writeLE g off n v) off n = v := by
  induction n with
  | zero => intro g off v hv; simp at hv; simpa [readLE] using hv.symm
  | succ n ih =>
    intro g off v hv
    unfold readLE
    have h0 : writeLE g off (n + 1) v off = v % 256 := by
      unfold writeLE
      rw [if_pos (by omega)]
      simp [and_255_eq_mod]
    have hmid : readLE (writeLE g off (n + 1) v) (off + 1) n
        = readLE (writeLE g (off + 1) n (v >>> 8)) (off + 1) n := by
      apply readLE_congr
      intro t ht
      rw [writeLE, writeLE]
      rw [if_pos (by omega), if_pos (by omega)]
      rw [show (8 : Nat) * (off + 1 + t - off) = 8 + 8 * (off + 1 + t - (off + 1)) by omega]
      rw [Nat.shiftRight_add]
    have hlt : v >>> 8 < 2 ^ (8 * n) := by
      rw [Nat.shiftRight_eq_div_pow]
      apply Nat.div_lt_of_lt_mul
      calc v < 2 ^ (8 * (n + 1)) := hv
        _ = 2 ^ 8 * 2 ^ (8 * n) := by rw [← pow_add]; ring_nf
    rw [h0, hmid, ih _ _ _ hlt, Nat.shiftRight_eq_div_pow]
    omega

/-! ## Bit-index bound helpers -/

theorem bloomBitIndex_lt (f : BloomFilter) (key : List Nat) (j : Nat)
    (hod : f.offset = f.bitmap_size / f.k_num) (hoff : 1 ≤ f.offset)
    (hj : j < f.k_num) :
    bloomBitIndex f key j < f.bitmap_size := by
  unfold bloomBitIndex
  have hmod : (computeHashes key f.k_num).getD j 0 % f.offset < f.offset :=
    Nat.mod_lt _ (by omega)
  have h1 : j * f.offset + (computeHashes key f.k_num).getD j 0 % f.offset
      < f.k_num * f.offset := by
    calc j * f.offset + (computeHashes key f.k_num).getD j 0 % f.offset
        < j * f.offset + f.offset := by omega
      _ = (j + 1) * f.offset := by ring
      _ ≤ f.k_num * f.offset := Nat.mul_le_mul_right _ (by omega)
  calc j * f.offset + (computeHashes key f.k_num).getD j 0 % f.offset
      < f.k_num * f.offset := h1
    _ = f.bitmap_size / f.k_num * f.k_num := by rw [hod]; ring
    _ ≤ f.bitmap_size := Nat.div_mul_le_self _ _

theorem bloomBitIndex_byte_lt (f : BloomFilter) (key : List Nat) (j : Nat)
    (hod : f.offset = f.bitmap_size / f.k_num) (hoff : 1 ≤ f.offset)
    (hbs : f.bitmap_size = 8 * f.bitmap.size - 96) (hsz : 12 < f.bitmap.size)
    (hj : j < f.k_num) :
    bloomBitIndex f key j >>> 3 < f.bitmap.size - 12 := by
  have h1 := bloomBitIndex_lt f key j hod hoff hj
  rw [shiftRight3_eq_div]
  omega

/-! ## Claim C4 -/

/-- Claim C4: for every BloomFilter with `offset = bitmap_size / k ≥ 1`,
every bit index set by `add` or tested by `contains` for hash slot `j`
equals `j * offset + (hash[j] mod offset)`, lies inside the disjoint
partition `[j*offset, (j+1)*offset)`, is strictly less than
`bitmap_size` bits, and therefore addresses a byte strictly below the 12
trailing header bytes. -/
theorem partitioned_bit_indices (f : BloomFilter) (key : List Nat) (j : Nat)
    (hod : f.offset = f.bitmap_size / f.k_num) (hoff : 1 ≤ f.offset)
    (hbs : f.bitmap_size = 8 * f.bitmap.size - 96) (hsz : 12 < f.bitmap.size)
    (hj : j < f.k_num) :
    bloomBitIndex f key j
      = j * f.offset + (computeHashes key f.k_num).getD j 0 % f.offset
    ∧ j * f.offset ≤ bloomBitIndex f key j
    ∧ bloomBitIndex f key j < (j + 1) * f.offset
    ∧ bloomBitIndex f key j < f.bitmap_size
    ∧ bloomBitIndex f key j >>> 3 < f.bitmap.size - 12
    ∧ (addBF f key false).2.bitmap
      = (List.range f.k_num).foldl (fun b i => b.setItem (bloomBitIndex f key i) 1) f.bitmap
    ∧ (containsBF f key).1
      = (List.range f.k_num).all fun i => f.bitmap.getItem (bloomBitIndex f key i) != 0 := by
  have hmod : (computeHashes key f.k_num).getD j 0 % f.offset < f.offset :=
    Nat.mod_lt _ (by omega)
  refine ⟨rfl, Nat.le_add_right _ _, ?_, bloomBitIndex_lt f key j hod hoff hj,
    bloomBitIndex_byte_lt f key j hod hoff hbs hsz hj, rfl, rfl⟩
  unfold bloomBitIndex
  calc j * f.offset + (computeHashes key f.k_num).getD j 0 % f.offset
      < j * f.offset + f.offset := by omega
    _ = (j + 1) * f.offset := by ring

/-- Witness for C4 at the concrete sample filter, hash slot `0`. -/
theorem partitioned_bit_indices_witness :
    bloomBitIndex sampleBF [3] 0 < sampleBF.bitmap_size
    ∧ bloomBitIndex sampleBF [3] 0 >>> 3 < sampleBF.bitmap.size - 12 :=
  ⟨(partitioned_bit_indices sampleBF [3] 0 (by decide) (by decide) (by decide)
      (by decide) (by decide)).2.2.2.1,
   (partitioned_bit_indices sampleBF [3] 0 (by decide) (by decide) (by decide)
      (by decide) (by decide)).2.2.2.2.1⟩

/-! ## Congruence of `__contains__` under byte agreement -/

theorem all_congr_of_mem {α : Type} (p q : α → Bool) :
    ∀ l : List α, (∀ a ∈ l, p a = q a) → l.all p = l.all q := by
  intro l
  induction l with
  | nil => intro _; rfl
  | cons a t ih =>
    intro h
    have ha : p a = q a := h a (List.mem_cons_self a t)
    have ht : t.all p = t.all q := ih fun x hx => h x (List.mem_cons_of_mem a hx)
    simp only [List.all_cons, ha, ht]

/-- Two filters with the same `k_num` and `offset` whose bitmaps agree on
every byte probed for `key` give the same `contains` answer. -/
theorem containsBF_fst_congr (f g : BloomFilter) (key : List Nat)
    (hk : g.k_num = f.k_num) (ho : g.offset = f.offset)
    (hb : ∀ i, i < f.k_num →
      g.bitmap.bytes (bloomBitIndex f key i >>> 3)
        = f.bitmap.bytes (bloomBitIndex f key i >>> 3)) :
    (containsBF g key).1 = (containsBF f key).1 := by
  simp only [containsBF]
  rw [hk, ho]
  apply all_congr_of_mem
  intro i hi
  have hidx : i * f.offset + (computeHashes key f.k_num).getD i 0 % f.offset
      = bloomBitIndex f key i := rfl
  rw [hidx, getItem_eq_testBit, getItem_eq_testBit, hb i (List.mem_range.1 hi)]

/-! ## Claim C9 -/

/-- Claim C9: if `flush` fails (the underlying `Bitmap.flush` reports an OS
error after the count header bytes were written into the mmap), the state
observable through the public interface — `count`, `k`, and the `contains`
result for every key — is the same as before the flush call.  `flushBF f`
is exactly the in-memory state left behind by a failed (or successful)
flush. -/
theorem flush_preserves_observables (f : BloomFilter)
    (hod : f.offset = f.bitmap_size / f.k_num) (hoff : 1 ≤ f.offset)
    (hbs : f.bitmap_size = 8 * f.bitmap.size - 96) (hsz : 12 < f.bitmap.size) :
    (flushBF f).count = f.count
    ∧ (flushBF f).k_num = f.k_num
    ∧ ∀ key, (containsBF (flushBF f) key).1 = (containsBF f key).1 := by
  refine ⟨rfl, rfl, fun key => ?_⟩
  apply containsBF_fst_congr f (flushBF f) key rfl rfl
  intro i hi
  have hbyte := bloomBitIndex_byte_lt f key i hod hoff hbs hsz hi
  show writeLE f.bitmap.bytes (f.bitmap_size / 8) 8 f.count (bloomBitIndex f key i >>> 3)
      = f.bitmap.bytes (bloomBitIndex f key i >>> 3)
  apply writeLE_out
  left
  omega

/-- Witness for C9 at the concrete sample filter. -/
theorem flush_preserves_observables_witness :
    (flushBF sampleBF).count = sampleBF.count
    ∧ (containsBF (flushBF sampleBF) [9]).1 = (containsBF sampleBF [9]).1 :=
  ⟨(flush_preserves_observables sampleBF (by decide) (by decide) (by decide)
      (by decide)).1,
   (flush_preserves_observables sampleBF (by decide) (by decide) (by decide)
      (by decide)).2.2 [9]⟩

/-! ## Characterization of construction -/

theorem mkBloomFilter_err (bm : Bitmap) (k : Nat) (h : bm.size ≤ 12 ∨ k < 1) :
    (mkBloomFilter bm k).isOk = false := by
  unfold mkBloomFilter
  by_cases hk : k < 1
  · rw [if_pos hk]; rfl
  · rw [if_neg hk, if_pos]
    · rfl
    · simp only [extraBuffer]
      omega

theorem mkBloomFilter_nonfresh (bm : Bitmap) (k : Nat) (hk : 1 ≤ k)
    (hsz : 12 < bm.size) (hstored : readKNum bm (8 * bm.size - 96) ≠ 0) :
    mkBloomFilter bm k = Except.ok
      { filter := { bitmap := bm, k_num := readKNum bm (8 * bm.size - 96),
                    bitmap_size := 8 * bm.size - 96,
                    offset := (8 * bm.size - 96) / readKNum bm (8 * bm.size - 96),
                    count := readCount bm (8 * bm.size - 96), hashes := [] },
        headerFlushed := false } := by
  unfold mkBloomFilter
  rw [if_neg (by omega), if_neg (by simp only [extraBuffer]; push_cast; omega)]
  have h96 : 8 * bm.size - 8 * extraBuffer = 8 * bm.size - 96 := by
    simp only [extraBuffer]
  rw [h96, if_neg hstored]

theorem mkBloomFilter_fresh (bm : Bitmap) (k : Nat) (hk : 1 ≤ k) (hk32 : k < 2 ^ 32)
    (hsz : 12 < bm.size) (hstored : readKNum bm (8 * bm.size - 96) = 0) :
    mkBloomFilter bm k = Except.ok
      { filter := { bitmap := writeKNum bm (8 * bm.size - 96) k, k_num := k,
                    bitmap_size := 8 * bm.size - 96,
                    offset := (8 * bm.size - 96) / k,
                    count := readCount (writeKNum bm (8 * bm.size - 96) k)
                      (8 * bm.size - 96),
                    hashes := [] },
        headerFlushed := true } := by
  unfold mkBloomFilter
  rw [if_neg (by omega), if_neg (by simp only [extraBuffer]; push_cast; omega)]
  have h96 : 8 * bm.size - 8 * extraBuffer = 8 * bm.size - 96 := by
    simp only [extraBuffer]
  rw [h96, if_pos hstored, if_pos hk32]

/-! ## Claim C2 -/

/-- Claim C2: flushing (and closing) a filter and then constructing a new
BloomFilter over the same underlying bytes, with any `k` argument `≥ 1`,
yields a filter with the same `k`, the same `count`, and the same
`contains` result for every key.  `flushBF f` is the byte state the bitmap
holds after `flush`/`close`; the hypotheses are the construction invariants
of a live filter (header authoritative, `offset = bitmap_size / k`, the
`size_t`/`u32` field widths). -/
theorem flush_reopen_roundtrip (f : BloomFilter) (kNew : Nat)
    (hsz : 12 < f.bitmap.size)
    (hbs : f.bitmap_size = 8 * f.bitmap.size - 96)
    (hod : f.offset = f.bitmap_size / f.k_num)
    (hoff : 1 ≤ f.offset)
    (hk1 : 1 ≤ f.k_num) (hk32 : f.k_num < 2 ^ 32)
    (hcnt : f.count < M64)
    (hhdr : readKNum f.bitmap f.bitmap_size = f.k_num)
    (hkNew : 1 ≤ kNew) :
    ∃ out, mkBloomFilter (flushBF f).bitmap kNew = Except.ok out
      ∧ out.filter.k_num = f.k_num
      ∧ out.filter.count = f.count
      ∧ ∀ key, (containsBF out.filter key).1 = (containsBF f key).1 := by
  have hsize2 : (flushBF f).bitmap.size = f.bitmap.size := rfl
  have hbseq : 8 * (flushBF f).bitmap.size - 96 = f.bitmap_size := by
    rw [hsize2, ← hbs]
  have hflushbytes : (flushBF f).bitmap.bytes
      = writeLE f.bitmap.bytes (f.bitmap_size / 8) 8 f.count := rfl
  have hstored : readKNum (flushBF f).bitmap (8 * (flushBF f).bitmap.size - 96)
      = f.k_num := by
    rw [hbseq]
    unfold readKNum
    rw [hflushbytes]
    exact (readLE_congr _ f.bitmap.bytes 4 (f.bitmap_size / 8 + 8)
      fun t ht => writeLE_out _ _ _ _ _ (Or.inr (by omega))).trans hhdr
  have hmk := mkBloomFilter_nonfresh (flushBF f).bitmap kNew hkNew
    (by rw [hsize2]; exact hsz) (by rw [hstored]; omega)
  refine ⟨_, hmk, hstored, ?_, ?_⟩
  · show readCount (flushBF f).bitmap (8 * (flushBF f).bitmap.size - 96) = f.count
    rw [hbseq]
    unfold readCount
    rw [hflushbytes]
    exact readLE_writeLE 8 _ _ _ hcnt
  · intro key
    apply containsBF_fst_congr f _ key hstored
    · show (8 * (flushBF f).bitmap.size - 96)
          / readKNum (flushBF f).bitmap (8 * (flushBF f).bitmap.size - 96) = f.offset
      rw [hstored, hbseq, ← hod]
    · intro i hi
      show writeLE f.bitmap.bytes (f.bitmap_size / 8) 8 f.count
          (bloomBitIndex f key i >>> 3) = f.bitmap.bytes (bloomBitIndex f key i >>> 3)
      have hbyte := bloomBitIndex_byte_lt f key i hod hoff hbs hsz hi
      apply writeLE_out
      left
      omega

/-- Witness for C2 at the concrete sample filter (header holds `k = 1`). -/
theorem flush_reopen_roundtrip_witness :
    ∃ out, mkBloomFilter (flushBF sampleBF).bitmap 1 = Except.ok out
      ∧ out.filter.k_num = sampleBF.k_num
      ∧ out.filter.count = sampleBF.count
      ∧ ∀ key, (containsBF out.filter key).1 = (containsBF sampleBF key).1 :=
  flush_reopen_roundtrip sampleBF 1 (by decide) (by decide) (by decide) (by decide)
    (by decide) (by decide) (by decide) (by decide) (by decide)

/-! ## Claim C6 -/

/-- Claim C6: constructing over a bitmap whose stored `k` header field is 0
installs the caller-supplied `k` and writes it through to the header (with
a flush); constructing over a bitmap whose stored `k` is nonzero yields a
filter whose `k` equals the stored value regardless of the caller's `k`
argument. -/
theorem k_header_install_preserve (bm : Bitmap) (k : Nat)
    (hsz : 12 < bm.size) (hk : 1 ≤ k) :
    (readKNum bm (8 * bm.size - 96) = 0 → k < 2 ^ 32 →
      ∃ out, mkBloomFilter bm k = Except.ok out
        ∧ out.filter.k_num = k
        ∧ readKNum out.filter.bitmap (8 * bm.size - 96) = k
        ∧ out.headerFlushed = true)
    ∧ (readKNum bm (8 * bm.size - 96) ≠ 0 →
      ∃ out, mkBloomFilter bm k = Except.ok out
        ∧ out.filter.k_num = readKNum bm (8 * bm.size - 96)) := by
  constructor
  · intro h0 hk32
    refine ⟨_, mkBloomFilter_fresh bm k hk hk32 hsz h0, rfl, ?_, rfl⟩
    unfold readKNum writeKNum
    exact readLE_writeLE 4 _ _ _ hk32
  · intro h0
    exact ⟨_, mkBloomFilter_nonfresh bm k hk hsz h0, rfl⟩

/-- Witness for C6: a fresh all-zero 13-byte bitmap with caller `k = 1`. -/
theorem k_header_install_preserve_witness :
    ∃ out, mkBloomFilter (zeroBitmap 13) 1 = Except.ok out
      ∧ out.filter.k_num = 1
      ∧ readKNum out.filter.bitmap (8 * (zeroBitmap 13).size - 96) = 1
      ∧ out.headerFlushed = true :=
  (k_header_install_preserve (zeroBitmap 13) 1 (by decide) (by decide)).1
    (by decide) (by decide)

/-! ## Claim C8 (corrected) -/

/-- Counterexample to C8 as stated: a fresh 13-byte bitmap (`size_bytes >
12`) with `k = 2^32 ≥ 1` still fails construction, because installing the
caller's `k` must pack it into the 32-bit `"<I"` header field. -/
theorem construction_guard_cex :
    12 < (zeroBitmap 13).size ∧ 1 ≤ 2 ^ 32
    ∧ (mkBloomFilter (zeroBitmap 13) (2 ^ 32)).isOk = false := by
  refine ⟨by decide, by decide, ?_⟩
  decide

/-- Claim C8 as amended: construction fails for every bitmap with
`size_bytes ≤ 12` and for every `k < 1`; for every bitmap with
`size_bytes > 12` and every `1 ≤ k < 2^32` it does not raise. -/
theorem construction_guard (bm : Bitmap) (k : Nat) :
    ((bm.size ≤ 12 ∨ k < 1) → (mkBloomFilter bm k).isOk = false)
    ∧ (12 < bm.size → 1 ≤ k → k < 2 ^ 32 → (mkBloomFilter bm k).isOk = true) := by
  constructor
  · exact mkBloomFilter_err bm k
  · intro hsz hk hk32
    by_cases h0 : readKNum bm (8 * bm.size - 96) = 0
    · rw [mkBloomFilter_fresh bm k hk hk32 hsz h0]; rfl
    · rw [mkBloomFilter_nonfresh bm k hk hsz h0]; rfl

/-- Witness for the amended C8: the 13-byte fresh bitmap with `k = 1`. -/
theorem construction_guard_witness :
    (mkBloomFilter (zeroBitmap 13) 1).isOk = true :=
  (construction_guard (zeroBitmap 13) 1).2 (by decide) (by decide) (by decide)

/-! ## Claim C3 -/

/-- Claim C3 (spec-modelled: the SBF implementation is not among the
sources): for `0 < prob < 1` and `0 < r < 1`, choosing `p₀ = prob · (1 − r)`
and `pᵢ = p₀ · rⁱ` makes the infinite sum of the per-layer targets at most
`prob`; with the default `r = 0.9`, `p₀ = 0.1 · prob`. -/
theorem sbf_probability_budget (prob r : ℝ)
    (_hp0 : 0 < prob) (_hp1 : prob < 1) (hr0 : 0 < r) (hr1 : r < 1) :
    tsum (fun i : ℕ => sbfLayerProb prob r i) ≤ prob
    ∧ sbfP0 prob 0.9 = 0.1 * prob := by
  constructor
  · have hsum : tsum (fun i : ℕ => sbfLayerProb prob r i)
        = sbfP0 prob r * (1 - r)⁻¹ := by
      simp only [sbfLayerProb]
      rw [tsum_mul_left, tsum_geometric_of_lt_one hr0.le hr1]
    have hne : (1 : ℝ) - r ≠ 0 := sub_ne_zero.mpr (ne_of_lt hr1).symm
    rw [hsum]
    unfold sbfP0
    rw [mul_inv_cancel_right₀ hne]
  · unfold sbfP0
    norm_num
    ring

/-- Witness for C3 at `prob = 1/2`, `r = 1/2`. -/
theorem sbf_probability_budget_witness :
    tsum (fun i : ℕ => sbfLayerProb (1 / 2) (1 / 2) i) ≤ (1 / 2 : ℝ) :=
  (sbf_probability_budget (1 / 2) (1 / 2) one_half_pos one_half_lt_one
    one_half_pos one_half_lt_one).1

end Pyblooming
